import Mathlib

/-!
Verification of dralley/rpmtools (src/lib.rs, src/main.rs).

The development shallowly embeds the core components of the repository:

* `split_package_into_components` (src/lib.rs lines 15-75): the segment
  splitter.  Bytes are modelled as `List Nat`; a Rust slice expression
  `&v[a..b]`, which panics when the range is invalid, is modelled by an
  `Option`-valued `sliceRange`; the filesystem side effects are modelled as
  an event trace (`FsEvent`) together with an outcome (`SplitOutcome`).
  The `fs::read` of the package file (line 36) may fail with an I/O error,
  so the embedding takes the read result as an `Option (List Nat)` parameter.

* the identity formatter: src/lib.rs lines 22-32 stringify the epoch and
  delegate to `rpm::Nevra::new(...).to_string()`, which lives in the external
  `rpm` crate; the formatter itself is modelled from the spec (§4.1).

* `print_package_file_tree` / `tree_display` / `print_tree_recursive`
  (src/lib.rs lines 117-205): the file-tree builder and renderer.  The Rust
  `BTreeMap<OsString, Box<TreeNode>>` is modelled as a list of key/child
  pairs kept sorted by key, with `updateChild` modelling
  `map.entry(k).or_default()`.  `OsString` keys compare by byte order; since
  UTF-8 byte order agrees with code-point order, the embedding compares
  strings by code-point-lexicographic order (`strLt`).
-/

/-- Byte offsets of the four structural sections of a package, as returned by
the metadata provider (`rpm::PackageMetadata::get_package_segment_offsets`). -/
structure PackageSegmentOffsets where
  lead : Nat
  signature_header : Nat
  header : Nat
  payload : Nat
deriving DecidableEq, Repr

/-- Rust slice `&v[a..b]`: `some` of the subrange when the bounds are valid,
`none` models the index-out-of-range panic. -/
def sliceRange (v : List Nat) (a b : Nat) : Option (List Nat) :=
  if a ≤ b ∧ b ≤ v.length then some ((v.take b).drop a) else none

/-- Rust slice `&v[a..]`: `some` of the suffix when `a` is in bounds,
`none` models the index-out-of-range panic. -/
def sliceFrom (v : List Nat) (a : Nat) : Option (List Nat) :=
  if a ≤ v.length then some (v.drop a) else none

/-- A filesystem side effect performed by the splitter. -/
inductive FsEvent where
  | createDirAll (dest : String)
  | writeFile (dest : String) (name : String) (data : List Nat)
deriving DecidableEq, Repr

/-- How a run of the splitter ends: normal return, an I/O error from reading
the package file, or a Rust panic from an out-of-bounds slice. -/
inductive SplitOutcome where
  | ok
  | ioError
  | panicked
deriving DecidableEq, Repr

/-- Embedding of `split_package_into_components` (src/lib.rs lines 15-75)
from the point where the destination path is known (line 34 onwards).
`dest` is the destination directory, `readResult` the result of
`fs::read(pkg_path)` (line 36, `none` = I/O error), `o` the segment offsets.
Returns the trace of filesystem events performed, in order, together with
the outcome.  The source slices the buffer directly without validating the
offsets (lines 47-72), so each slice may panic; sections already written
before a panic stay in the trace. -/
def split_package_into_components (dest : String) (readResult : Option (List Nat))
    (o : PackageSegmentOffsets) : List FsEvent × SplitOutcome :=
  let ev0 := [FsEvent.createDirAll dest]
  match readResult with
  | none => (ev0, SplitOutcome.ioError)
  | some input =>
    match sliceRange input o.lead o.signature_header with
    | none => (ev0, SplitOutcome.panicked)
    | some leadData =>
      let ev1 := ev0 ++ [FsEvent.writeFile dest "lead" leadData]
      match sliceRange input o.signature_header o.header with
      | none => (ev1, SplitOutcome.panicked)
      | some sigData =>
        let ev2 := ev1 ++ [FsEvent.writeFile dest "sig_header" sigData]
        match sliceRange input o.header o.payload with
        | none => (ev2, SplitOutcome.panicked)
        | some headerData =>
          let ev3 := ev2 ++ [FsEvent.writeFile dest "header" headerData]
          match sliceFrom input o.payload with
          | none => (ev3, SplitOutcome.panicked)
          | some payloadData =>
            (ev3 ++ [FsEvent.writeFile dest "payload" payloadData], SplitOutcome.ok)

/-- The ordering/bounds invariant on segment offsets stated by the spec:
`lead ≤ signature_header ≤ header ≤ payload ≤ length`. -/
def offsetsValid (o : PackageSegmentOffsets) (len : Nat) : Prop :=
  o.lead ≤ o.signature_header ∧ o.signature_header ≤ o.header ∧
    o.header ≤ o.payload ∧ o.payload ≤ len

instance (o : PackageSegmentOffsets) (len : Nat) : Decidable (offsetsValid o len) := by
  unfold offsetsValid
  exact inferInstance

/-- Modelled from the spec: the identity fields handed to the identity
formatter.  src/lib.rs line 22 stringifies the numeric epoch
(`get_epoch().unwrap_or(0).to_string()`) before formatting, so the epoch
field here is that already-rendered string. -/
structure PackageIdentity where
  name : String
  epoch : String
  version : String
  release : String
  arch : String
deriving DecidableEq, Repr

/-- Modelled from the spec: the identity formatter.  `rpm::Nevra` lives in
the external `rpm` crate (src/lib.rs lines 23-32 only build it and call
`to_string`); §4.1 of the spec fixes the label format as NEVRA
`name-epoch:version-release.arch`. -/
def nevraString (i : PackageIdentity) : String :=
  i.name ++ "-" ++ i.epoch ++ ":" ++ i.version ++ "-" ++ i.release ++ "." ++ i.arch

/-- Code-point-lexicographic comparison of character lists.  This is the
order `BTreeMap<OsString, _>` uses on UTF-8 path components (byte-wise
comparison, which on UTF-8 agrees with code-point order). -/
def charsLt : List Char → List Char → Bool
  | [], [] => false
  | [], _ :: _ => true
  | _ :: _, [] => false
  | a :: as, b :: bs =>
    if a.toNat < b.toNat then true
    else if a.toNat = b.toNat then charsLt as bs
    else false

/-- The `BTreeMap` key order on path-component strings. -/
def strLt (a b : String) : Bool := charsLt a.data b.data

/-- The tree node of `print_package_file_tree` (src/lib.rs lines 136-139):
`struct TreeNode { children: BTreeMap<OsString, Box<TreeNode>> }`.  The map
is modelled as a list of key/child pairs kept sorted by `strLt`. -/
inductive TreeNode : Type where
  | mk : List (String × TreeNode) → TreeNode

/-- The `children` field accessor. -/
def TreeNode.children : TreeNode → List (String × TreeNode)
  | .mk cs => cs

/-- `BTreeMap::entry(k).or_default()` followed by applying `f` to the
found-or-created child: on a list sorted by `strLt`, walk to the position of
`k`, update the existing entry or insert a fresh default node there. -/
def updateChild (k : String) (f : TreeNode → TreeNode) :
    List (String × TreeNode) → List (String × TreeNode)
  | [] => [(k, f (TreeNode.mk []))]
  | (q, t) :: tail =>
    if strLt k q then (k, f (TreeNode.mk [])) :: (q, t) :: tail
    else if k = q then (q, f t) :: tail
    else (q, t) :: updateChild k f tail

/-- One iteration of the tree-building loop in `tree_display`
(src/lib.rs lines 156-169): walk the components of one path, doing
find-or-create at each level. -/
def insertPath (t : TreeNode) (path : List String) : TreeNode :=
  match t, path with
  | t, [] => t
  | t, k :: rest => TreeNode.mk (updateChild k (fun c => insertPath c rest) t.children)
termination_by structural path

/-- The tree built by the loop in `tree_display` from a flat path list. -/
def buildTree (paths : List (List String)) : TreeNode :=
  paths.foldl insertPath (TreeNode.mk [])

/-- `BTreeMap` lookup on the sorted child list (walks until the key is
passed). -/
def lookupChild (k : String) : List (String × TreeNode) → Option TreeNode
  | [] => none
  | (q, t) :: tail => if strLt k q then none else if k = q then some t else lookupChild k tail

/-- Whether every component of `path` is already present along a chain of
children starting at `t`. -/
def containsPath (t : TreeNode) (path : List String) : Bool :=
  match t, path with
  | _, [] => true
  | t, k :: rest =>
    match lookupChild k t.children with
    | some c => containsPath c rest
    | none => false
termination_by structural path

mutual
/-- `print_tree_recursive` (src/lib.rs lines 181-202), with the printed
lines collected into a list: for each child in stored order, emit the
accumulated prefix, the connector (`└── ` for the last sibling, `├── `
otherwise) and the name, then recurse into non-empty children with the
prefix extended by `    ` (last sibling) or `│   ` (otherwise). -/
def print_tree_recursive (t : TreeNode) (pre : String) : List String :=
  match t with
  | TreeNode.mk cs => renderSiblings cs pre
termination_by structural t

/-- The `while let Some((name, node)) = iter.next()` loop body of
`print_tree_recursive`, over the remaining sibling list. -/
def renderSiblings (cs : List (String × TreeNode)) (pre : String) : List String :=
  match cs with
  | [] => []
  | (name, node) :: tail =>
    (pre ++ (if tail.isEmpty then "└── " else "├── ") ++ name) ::
      ((if node.children.isEmpty then []
        else print_tree_recursive node (pre ++ (if tail.isEmpty then "    " else "│   "))) ++
        renderSiblings tail pre)
termination_by structural cs
end

/-- `tree_display` (src/lib.rs lines 146-174), with the printed lines
collected into a list: print `.` alone for an empty path list, otherwise
build the tree and print `.` followed by the recursive rendering. -/
def tree_display (paths : List (List String)) : List String :=
  if paths.isEmpty then ["."]
  else "." :: print_tree_recursive (buildTree paths) ""

/-- Every level of the tree keeps its sibling component names strictly
sorted in the `BTreeMap` key order. -/
inductive TreeSorted : TreeNode → Prop where
  | mk : ∀ cs, List.Pairwise (fun a b => strLt a.1 b.1 = true) cs →
      (∀ p ∈ cs, TreeSorted p.2) → TreeSorted (TreeNode.mk cs)

lemma take_drop_append (l : List Nat) (a b : Nat) (h : a ≤ b) :
    (l.take b).drop a ++ l.drop b = l.drop a := by
  induction l generalizing a b with
  | nil => simp
  | cons x t ih =>
    cases a with
    | zero => simp [List.take_append_drop]
    | succ a' =>
      cases b with
      | zero => omega
      | succ b' =>
        simpa using ih a' b' (Nat.succ_le_succ_iff.mp h)

/-- On a successful read with valid offsets, the splitter creates the
directory and writes the four sections, in order, with the slice contents
that the source computes. -/
lemma split_valid_eq (dest : String) (input : List Nat) (o : PackageSegmentOffsets)
    (h : offsetsValid o input.length) :
    split_package_into_components dest (some input) o =
      ([FsEvent.createDirAll dest,
        FsEvent.writeFile dest "lead" ((input.take o.signature_header).drop o.lead),
        FsEvent.writeFile dest "sig_header" ((input.take o.header).drop o.signature_header),
        FsEvent.writeFile dest "header" ((input.take o.payload).drop o.header),
        FsEvent.writeFile dest "payload" (input.drop o.payload)],
       SplitOutcome.ok) := by
  obtain ⟨h1, h2, h3, h4⟩ := h
  have c1 : o.lead ≤ o.signature_header ∧ o.signature_header ≤ input.length :=
    ⟨h1, le_trans h2 (le_trans h3 h4)⟩
  have c2 : o.signature_header ≤ o.header ∧ o.header ≤ input.length :=
    ⟨h2, le_trans h3 h4⟩
  have c3 : o.header ≤ o.payload ∧ o.payload ≤ input.length := ⟨h3, h4⟩
  simp [split_package_into_components, sliceRange, sliceFrom, c1, c2, c3, h4]

/-- With invalid offsets, a slice panics and the run ends in `panicked`. -/
lemma split_invalid_panics (dest : String) (input : List Nat) (o : PackageSegmentOffsets)
    (h : ¬ offsetsValid o input.length) :
    (split_package_into_components dest (some input) o).2 = SplitOutcome.panicked := by
  unfold offsetsValid at h
  push_neg at h
  by_cases h1 : o.lead ≤ o.signature_header
  · by_cases hs : o.signature_header ≤ input.length
    · by_cases h2 : o.signature_header ≤ o.header
      · by_cases hh : o.header ≤ input.length
        · by_cases h3 : o.header ≤ o.payload
          · have h4 : ¬ o.payload ≤ input.length := Nat.not_le.mpr (h h1 h2 h3)
            simp [split_package_into_components, sliceRange, sliceFrom,
              h1, hs, h2, hh, h3, h4]
          · simp [split_package_into_components, sliceRange, sliceFrom,
              h1, hs, h2, hh, h3]
        · simp [split_package_into_components, sliceRange, sliceFrom, h1, hs, h2, hh]
      · simp [split_package_into_components, sliceRange, sliceFrom, h1, hs, h2]
    · have h2' : ¬ (o.signature_header ≤ o.header ∧ o.header ≤ input.length) := by
        intro hc
        exact hs (le_trans hc.1 hc.2)
      simp [split_package_into_components, sliceRange, sliceFrom, h1, hs, h2']
  · simp [split_package_into_components, sliceRange, sliceFrom, h1]

/-- C1 (amended): with valid offsets the four written sections concatenate to
the suffix of the buffer starting at `lead`; when `lead = 0` this is the
whole buffer. -/
theorem split_roundtrip (dest : String) (input : List Nat) (o : PackageSegmentOffsets)
    (h : offsetsValid o input.length) :
    ∃ L S H P,
      split_package_into_components dest (some input) o =
        ([FsEvent.createDirAll dest,
          FsEvent.writeFile dest "lead" L,
          FsEvent.writeFile dest "sig_header" S,
          FsEvent.writeFile dest "header" H,
          FsEvent.writeFile dest "payload" P],
         SplitOutcome.ok) ∧
      L ++ S ++ H ++ P = input.drop o.lead ∧
      (o.lead = 0 → L ++ S ++ H ++ P = input) := by
  obtain ⟨h1, h2, h3, h4⟩ := h
  refine ⟨(input.take o.signature_header).drop o.lead,
    (input.take o.header).drop o.signature_header,
    (input.take o.payload).drop o.header,
    input.drop o.payload, split_valid_eq dest input o ⟨h1, h2, h3, h4⟩, ?_, ?_⟩
  · have e3 : (input.take o.payload).drop o.header ++ input.drop o.payload =
        input.drop o.header := take_drop_append input o.header o.payload h3
    have e2 : (input.take o.header).drop o.signature_header ++ input.drop o.header =
        input.drop o.signature_header := take_drop_append input o.signature_header o.header h2
    have e1 : (input.take o.signature_header).drop o.lead ++ input.drop o.signature_header =
        input.drop o.lead := take_drop_append input o.lead o.signature_header h1
    calc (input.take o.signature_header).drop o.lead ++
          (input.take o.header).drop o.signature_header ++
          (input.take o.payload).drop o.header ++ input.drop o.payload
        = (input.take o.signature_header).drop o.lead ++
          ((input.take o.header).drop o.signature_header ++
            ((input.take o.payload).drop o.header ++ input.drop o.payload)) := by
          simp [List.append_assoc]
      _ = input.drop o.lead := by rw [e3, e2, e1]
  · intro hl
    have e3 : (input.take o.payload).drop o.header ++ input.drop o.payload =
        input.drop o.header := take_drop_append input o.header o.payload h3
    have e2 : (input.take o.header).drop o.signature_header ++ input.drop o.header =
        input.drop o.signature_header := take_drop_append input o.signature_header o.header h2
    have e1 : (input.take o.signature_header).drop o.lead ++ input.drop o.signature_header =
        input.drop o.lead := take_drop_append input o.lead o.signature_header h1
    have : (input.take o.signature_header).drop o.lead ++
        (input.take o.header).drop o.signature_header ++
        (input.take o.payload).drop o.header ++ input.drop o.payload =
        input.drop o.lead := by
      calc (input.take o.signature_header).drop o.lead ++
            (input.take o.header).drop o.signature_header ++
            (input.take o.payload).drop o.header ++ input.drop o.payload
          = (input.take o.signature_header).drop o.lead ++
            ((input.take o.header).drop o.signature_header ++
              ((input.take o.payload).drop o.header ++ input.drop o.payload)) := by
            simp [List.append_assoc]
        _ = input.drop o.lead := by rw [e3, e2, e1]
    simpa [hl] using this

/-- C1 counterexample: for the buffer `[7]` and offsets `(1,1,1,1)`, which
satisfy the ordering/bounds invariant, all four written sections are empty,
so their concatenation is not the original buffer. -/
theorem split_roundtrip_counterexample :
    offsetsValid ⟨1, 1, 1, 1⟩ ([7] : List Nat).length ∧
    split_package_into_components "d" (some [7]) ⟨1, 1, 1, 1⟩ =
      ([FsEvent.createDirAll "d", FsEvent.writeFile "d" "lead" [],
        FsEvent.writeFile "d" "sig_header" [], FsEvent.writeFile "d" "header" [],
        FsEvent.writeFile "d" "payload" []], SplitOutcome.ok) ∧
    ([] : List Nat) ++ [] ++ [] ++ [] ≠ [7] := by
  refine ⟨by decide, by decide, by decide⟩

/-- Witness for `split_roundtrip` at buffer `[1,2,3]` and offsets `(0,1,2,3)`. -/
theorem split_roundtrip_witness :
    offsetsValid ⟨0, 1, 2, 3⟩ ([1, 2, 3] : List Nat).length ∧
    ∃ L S H P,
      split_package_into_components "d" (some [1, 2, 3]) ⟨0, 1, 2, 3⟩ =
        ([FsEvent.createDirAll "d",
          FsEvent.writeFile "d" "lead" L,
          FsEvent.writeFile "d" "sig_header" S,
          FsEvent.writeFile "d" "header" H,
          FsEvent.writeFile "d" "payload" P],
         SplitOutcome.ok) ∧
      L ++ S ++ H ++ P = ([1, 2, 3] : List Nat).drop (0 : Nat) ∧
      ((0 : Nat) = 0 → L ++ S ++ H ++ P = [1, 2, 3]) :=
  ⟨by decide, split_roundtrip "d" [1, 2, 3] ⟨0, 1, 2, 3⟩ (by decide)⟩

lemma split_trace_head (dest : String) (rr : Option (List Nat))
    (o : PackageSegmentOffsets) :
    (split_package_into_components dest rr o).1.head? =
      some (FsEvent.createDirAll dest) := by
  unfold split_package_into_components
  cases rr with
  | none => rfl
  | some input =>
    cases h1 : sliceRange input o.lead o.signature_header with
    | none => simp [h1]
    | some l1 =>
      cases h2 : sliceRange input o.signature_header o.header with
      | none => simp [h1, h2]
      | some l2 =>
        cases h3 : sliceRange input o.header o.payload with
        | none => simp [h1, h2, h3]
        | some l3 =>
          cases h4 : sliceFrom input o.payload with
          | none => simp [h1, h2, h3, h4]
          | some l4 => simp [h1, h2, h3, h4]

/-- C2 counterexample: for offsets `(0,1,5,5)` on the 3-byte buffer `[0,1,2]`
the invariant is violated, yet the run writes the `lead` section file before
the out-of-bounds slice panics — so a section file IS written, no FormatError
is produced, and the violation is not detected before slicing. -/
theorem split_invalid_writes_counterexample :
    ¬ offsetsValid ⟨0, 1, 5, 5⟩ ([0, 1, 2] : List Nat).length ∧
    split_package_into_components "out" (some [0, 1, 2]) ⟨0, 1, 5, 5⟩ =
      ([FsEvent.createDirAll "out", FsEvent.writeFile "out" "lead" [0]],
       SplitOutcome.panicked) ∧
    FsEvent.writeFile "out" "lead" [0] ∈
      (split_package_into_components "out" (some [0, 1, 2]) ⟨0, 1, 5, 5⟩).1 := by
  refine ⟨by decide, by decide, by decide⟩

/-- C2 (amended): for every offsets value violating the invariant the split
does not complete — the first invalid slice panics (the code has no
FormatError path and performs no up-front validation) — and the destination
directory has already been created by then (it is the first trace event);
sections before the first invalid slice may already have been written. -/
theorem split_invalid_panics_after_mkdir (dest : String) (input : List Nat)
    (o : PackageSegmentOffsets) (h : ¬ offsetsValid o input.length) :
    (split_package_into_components dest (some input) o).2 = SplitOutcome.panicked ∧
    (split_package_into_components dest (some input) o).1.head? =
      some (FsEvent.createDirAll dest) :=
  ⟨split_invalid_panics dest input o h, split_trace_head dest (some input) o⟩

/-- Witness for `split_invalid_panics_after_mkdir` at buffer `[0,1,2]` and
offsets `(0,1,5,5)`. -/
theorem split_invalid_panics_after_mkdir_witness :
    ¬ offsetsValid ⟨0, 1, 5, 5⟩ ([0, 1, 2] : List Nat).length ∧
    ((split_package_into_components "d" (some [0, 1, 2]) ⟨0, 1, 5, 5⟩).2 =
        SplitOutcome.panicked ∧
      (split_package_into_components "d" (some [0, 1, 2]) ⟨0, 1, 5, 5⟩).1.head? =
        some (FsEvent.createDirAll "d")) :=
  ⟨by decide, split_invalid_panics_after_mkdir "d" [0, 1, 2] ⟨0, 1, 5, 5⟩ (by decide)⟩

/-- C3 counterexample: at buffer `[5]` and offsets `(2,2,2,2)` (all beyond the
buffer) the splitter panics, so it is not panic-free on invalid offsets. -/
theorem split_panics_counterexample :
    (split_package_into_components "p" (some [5]) ⟨2, 2, 2, 2⟩).2 =
      SplitOutcome.panicked := by
  decide

/-- C3 (amended): every slice access is bounds-checked (the embedding's
`sliceRange`/`sliceFrom` return `none` rather than reading out of bounds),
but the splitter performs no up-front validation: after a successful read it
completes normally exactly when the offsets satisfy the invariant, and on
invalid offsets it panics rather than returning an error. -/
theorem split_ok_iff_valid (dest : String) (input : List Nat)
    (o : PackageSegmentOffsets) :
    ((split_package_into_components dest (some input) o).2 = SplitOutcome.ok ↔
      offsetsValid o input.length) ∧
    (¬ offsetsValid o input.length →
      (split_package_into_components dest (some input) o).2 = SplitOutcome.panicked) := by
  refine ⟨⟨fun hok => ?_, fun hv => ?_⟩, split_invalid_panics dest input o⟩
  · by_contra hv
    rw [split_invalid_panics dest input o hv] at hok
    exact SplitOutcome.noConfusion hok
  · rw [split_valid_eq dest input o hv]

/-- Witness for `split_ok_iff_valid` at buffer `[5]` and offsets `(2,2,2,2)`. -/
theorem split_ok_iff_valid_witness :
    ((split_package_into_components "w" (some [5]) ⟨2, 2, 2, 2⟩).2 = SplitOutcome.ok ↔
      offsetsValid ⟨2, 2, 2, 2⟩ ([5] : List Nat).length) ∧
    (¬ offsetsValid ⟨2, 2, 2, 2⟩ ([5] : List Nat).length →
      (split_package_into_components "w" (some [5]) ⟨2, 2, 2, 2⟩).2 =
        SplitOutcome.panicked) :=
  split_ok_iff_valid "w" [5] ⟨2, 2, 2, 2⟩

/-- C9: the destination directory is created before the package bytes are
read — it is the first filesystem event of every run — and when the read
fails with an I/O error the run aborts with the directory-creation event as
the only filesystem event performed: the newly created directory remains. -/
theorem create_dir_before_read (dest : String) (rr : Option (List Nat))
    (o : PackageSegmentOffsets) :
    (split_package_into_components dest rr o).1.head? =
      some (FsEvent.createDirAll dest) ∧
    split_package_into_components dest none o =
      ([FsEvent.createDirAll dest], SplitOutcome.ioError) :=
  ⟨split_trace_head dest rr o, rfl⟩

lemma charEq_of_toNat {a b : Char} (h : a.toNat = b.toNat) : a = b :=
  Char.ext (UInt32.toNat.inj h)

lemma strEq_of_data {s t : String} (h : s.data = t.data) : s = t := by
  cases s
  cases t
  exact congrArg String.mk h

lemma charsLt_cons_iff (x y : Char) (xs ys : List Char) :
    charsLt (x :: xs) (y :: ys) = true ↔
      x.toNat < y.toNat ∨ (x.toNat = y.toNat ∧ charsLt xs ys = true) := by
  by_cases h : x.toNat < y.toNat
  · simp [charsLt, h]
  · by_cases he : x.toNat = y.toNat
    · simp [charsLt, h, he]
    · simp [charsLt, h, he]

lemma charsLt_irrefl (l : List Char) : charsLt l l = false := by
  induction l with
  | nil => rfl
  | cons a as ih => simp [charsLt, ih]

lemma charsLt_trans {a b c : List Char} (h₁ : charsLt a b = true)
    (h₂ : charsLt b c = true) : charsLt a c = true := by
  induction a generalizing b c with
  | nil =>
    cases b with
    | nil => simp [charsLt] at h₁
    | cons y ys =>
      cases c with
      | nil => simp [charsLt] at h₂
      | cons z zs => rfl
  | cons x xs ih =>
    cases b with
    | nil => simp [charsLt] at h₁
    | cons y ys =>
      cases c with
      | nil => simp [charsLt] at h₂
      | cons z zs =>
        rw [charsLt_cons_iff] at h₁ h₂ ⊢
        rcases h₁ with h₁ | ⟨h₁e, h₁r⟩
        · rcases h₂ with h₂ | ⟨h₂e, h₂r⟩
          · exact Or.inl (lt_trans h₁ h₂)
          · exact Or.inl (h₂e ▸ h₁)
        · rcases h₂ with h₂ | ⟨h₂e, h₂r⟩
          · exact Or.inl (h₁e ▸ h₂)
          · exact Or.inr ⟨h₁e.trans h₂e, ih h₁r h₂r⟩

lemma charsLt_eq_of_both_false {a b : List Char} (h₁ : charsLt a b = false)
    (h₂ : charsLt b a = false) : a = b := by
  induction a generalizing b with
  | nil =>
    cases b with
    | nil => rfl
    | cons y ys => simp [charsLt] at h₁
  | cons x xs ih =>
    cases b with
    | nil => simp [charsLt] at h₂
    | cons y ys =>
      have H₁ : ¬ (x.toNat < y.toNat ∨ (x.toNat = y.toNat ∧ charsLt xs ys = true)) := by
        rw [← charsLt_cons_iff]
        simp [h₁]
      have H₂ : ¬ (y.toNat < x.toNat ∨ (y.toNat = x.toNat ∧ charsLt ys xs = true)) := by
        rw [← charsLt_cons_iff]
        simp [h₂]
      push_neg at H₁ H₂
      have hxy : x.toNat = y.toNat := by omega
      have hxs : charsLt xs ys = false := by
        cases hc : charsLt xs ys
        · rfl
        · exact absurd hc (H₁.2 hxy)
      have hys : charsLt ys xs = false := by
        cases hc : charsLt ys xs
        · rfl
        · exact absurd hc (H₂.2 hxy.symm)
      rw [charEq_of_toNat hxy, ih hxs hys]

lemma strLt_irrefl (s : String) : strLt s s = false := charsLt_irrefl s.data

lemma strLt_trans {a b c : String} (h₁ : strLt a b = true) (h₂ : strLt b c = true) :
    strLt a c = true := charsLt_trans h₁ h₂

lemma strLt_total {a b : String} (h : strLt a b = false) (hne : a ≠ b) :
    strLt b a = true := by
  cases hba : strLt b a
  · exact absurd (strEq_of_data (charsLt_eq_of_both_false h hba)) hne
  · rfl

lemma updateChild_nil (k : String) (f : TreeNode → TreeNode) :
    updateChild k f [] = [(k, f (TreeNode.mk []))] := rfl

lemma updateChild_lt {k q : String} (f : TreeNode → TreeNode) (t : TreeNode)
    (tail : List (String × TreeNode)) (h : strLt k q = true) :
    updateChild k f ((q, t) :: tail) =
      (k, f (TreeNode.mk [])) :: (q, t) :: tail := by
  simp [updateChild, h]

lemma updateChild_self (k : String) (f : TreeNode → TreeNode) (t : TreeNode)
    (tail : List (String × TreeNode)) :
    updateChild k f ((k, t) :: tail) = (k, f t) :: tail := by
  simp [updateChild, strLt_irrefl]

lemma updateChild_gt {k q : String} (f : TreeNode → TreeNode) (t : TreeNode)
    (tail : List (String × TreeNode)) (h1 : ¬ strLt k q = true) (h2 : k ≠ q) :
    updateChild k f ((q, t) :: tail) = (q, t) :: updateChild k f tail := by
  simp [updateChild, h1, h2]

lemma updateChild_mem_keys {k : String} {f : TreeNode → TreeNode}
    {cs : List (String × TreeNode)} :
    ∀ p ∈ updateChild k f cs, p.1 = k ∨ ∃ q ∈ cs, p.1 = q.1 := by
  induction cs with
  | nil =>
    intro p hp
    simp [updateChild] at hp
    exact Or.inl (by rw [hp])
  | cons hd tail ih =>
    obtain ⟨q, t⟩ := hd
    intro p hp
    by_cases hlt : strLt k q = true
    · rw [updateChild_lt f t tail hlt] at hp
      rcases List.mem_cons.mp hp with rfl | hp
      · exact Or.inl rfl
      · rcases List.mem_cons.mp hp with rfl | hp
        · exact Or.inr ⟨(q, t), List.mem_cons_self _ _, rfl⟩
        · exact Or.inr ⟨p, List.mem_cons_of_mem _ hp, rfl⟩
    · by_cases heq : k = q
      · subst heq
        rw [updateChild_self k f t tail] at hp
        rcases List.mem_cons.mp hp with rfl | hp
        · exact Or.inl rfl
        · exact Or.inr ⟨p, List.mem_cons_of_mem _ hp, rfl⟩
      · rw [updateChild_gt f t tail hlt heq] at hp
        rcases List.mem_cons.mp hp with rfl | hp
        · exact Or.inr ⟨(q, t), List.mem_cons_self _ _, rfl⟩
        · rcases ih p hp with h | ⟨r, hr, hpr⟩
          · exact Or.inl h
          · exact Or.inr ⟨r, List.mem_cons_of_mem _ hr, hpr⟩

lemma updateChild_pairwise {k : String} {f : TreeNode → TreeNode}
    {cs : List (String × TreeNode)}
    (h : List.Pairwise (fun a b => strLt a.1 b.1 = true) cs) :
    List.Pairwise (fun a b => strLt a.1 b.1 = true) (updateChild k f cs) := by
  induction cs with
  | nil => simp [updateChild]
  | cons hd tail ih =>
    obtain ⟨q, t⟩ := hd
    rw [List.pairwise_cons] at h
    obtain ⟨hq, htail⟩ := h
    by_cases hlt : strLt k q = true
    · rw [updateChild_lt f t tail hlt]
      refine List.Pairwise.cons ?_ (List.Pairwise.cons hq htail)
      intro b hb
      rcases List.mem_cons.mp hb with rfl | hb
      · exact hlt
      · exact strLt_trans hlt (hq b hb)
    · by_cases heq : k = q
      · subst heq
        rw [updateChild_self k f t tail]
        exact List.Pairwise.cons hq htail
      · rw [updateChild_gt f t tail hlt heq]
        refine List.Pairwise.cons ?_ (ih htail)
        intro b hb
        rcases updateChild_mem_keys b hb with hbk | ⟨r, hr, hbr⟩
        · rw [hbk]
          exact strLt_total (Bool.eq_false_iff.mpr hlt) heq
        · rw [hbr]
          exact hq r hr

lemma treeSorted_nil : TreeSorted (TreeNode.mk []) :=
  TreeSorted.mk [] List.Pairwise.nil (fun p hp => absurd hp (List.not_mem_nil p))

lemma updateChild_children_sorted {k : String} {f : TreeNode → TreeNode}
    {cs : List (String × TreeNode)}
    (hall : ∀ p ∈ cs, TreeSorted p.2)
    (hf : ∀ c, TreeSorted c → TreeSorted (f c)) :
    ∀ p ∈ updateChild k f cs, TreeSorted p.2 := by
  induction cs with
  | nil =>
    intro p hp
    simp [updateChild] at hp
    rw [hp]
    exact hf _ treeSorted_nil
  | cons hd tail ih =>
    obtain ⟨q, t⟩ := hd
    intro p hp
    by_cases hlt : strLt k q = true
    · rw [updateChild_lt f t tail hlt] at hp
      rcases List.mem_cons.mp hp with rfl | hp
      · exact hf _ treeSorted_nil
      · exact hall p hp
    · by_cases heq : k = q
      · subst heq
        rw [updateChild_self k f t tail] at hp
        rcases List.mem_cons.mp hp with rfl | hp
        · exact hf t (hall (k, t) (List.mem_cons_self _ _))
        · exact hall p (List.mem_cons_of_mem _ hp)
      · rw [updateChild_gt f t tail hlt heq] at hp
        rcases List.mem_cons.mp hp with rfl | hp
        · exact hall (q, t) (List.mem_cons_self _ _)
        · exact ih (fun r hr => hall r (List.mem_cons_of_mem _ hr)) p hp

lemma insertPath_sorted (path : List String) :
    ∀ t, TreeSorted t → TreeSorted (insertPath t path) := by
  induction path with
  | nil =>
    intro t ht
    exact ht
  | cons k rest ih =>
    intro t ht
    cases t with
    | mk cs =>
      cases ht with
      | mk _ hpw hch =>
        exact TreeSorted.mk _ (updateChild_pairwise hpw)
          (updateChild_children_sorted hch (fun c hc => ih c hc))

lemma foldl_insertPath_sorted (paths : List (List String)) :
    ∀ t, TreeSorted t → TreeSorted (paths.foldl insertPath t) := by
  induction paths with
  | nil =>
    intro t ht
    exact ht
  | cons p rest ih =>
    intro t ht
    exact ih _ (insertPath_sorted p t ht)

/-- C4: at every level of the built tree the sibling component names are
strictly sorted in the `BTreeMap` key order, whatever the insertion order;
in particular siblings inserted as `b`, `a`, `c` are rendered as
`a`, `b`, `c`. -/
theorem tree_children_sorted (paths : List (List String)) :
    TreeSorted (buildTree paths) ∧
    tree_display [["b"], ["a"], ["c"]] = [".", "├── a", "├── b", "└── c"] :=
  ⟨foldl_insertPath_sorted paths _ treeSorted_nil, by decide⟩

lemma lookup_updateChild_self (k : String) (f : TreeNode → TreeNode) :
    ∀ cs, lookupChild k (updateChild k f cs) =
      some (f ((lookupChild k cs).getD (TreeNode.mk []))) := by
  intro cs
  induction cs with
  | nil => simp [updateChild, lookupChild, strLt_irrefl]
  | cons hd tail ih =>
    obtain ⟨q, t⟩ := hd
    by_cases hlt : strLt k q = true
    · rw [updateChild_lt f t tail hlt]
      simp [lookupChild, strLt_irrefl, hlt]
    · by_cases heq : k = q
      · subst heq
        rw [updateChild_self k f t tail]
        simp [lookupChild, strLt_irrefl]
      · rw [updateChild_gt f t tail hlt heq]
        simp [lookupChild, hlt, heq, ih]

lemma lookup_updateChild_other {k k2 : String} (hne : k ≠ k2) (f : TreeNode → TreeNode) :
    ∀ cs, lookupChild k (updateChild k2 f cs) = lookupChild k cs := by
  intro cs
  induction cs with
  | nil =>
    by_cases hlt : strLt k k2 = true
    · simp [updateChild, lookupChild, hlt]
    · simp [updateChild, lookupChild, hlt, hne]
  | cons hd tail ih =>
    obtain ⟨q, t⟩ := hd
    by_cases hlt2 : strLt k2 q = true
    · rw [updateChild_lt f t tail hlt2]
      by_cases hkk2 : strLt k k2 = true
      · have hkq : strLt k q = true := strLt_trans hkk2 hlt2
        simp [lookupChild, hkk2, hkq]
      · simp [lookupChild, hkk2, hne]
    · by_cases heq : k2 = q
      · subst heq
        rw [updateChild_self k2 f t tail]
        simp [lookupChild, hne]
      · rw [updateChild_gt f t tail hlt2 heq]
        simp [lookupChild, ih]

lemma contains_insert_self (p : List String) :
    ∀ t, containsPath (insertPath t p) p = true := by
  induction p with
  | nil =>
    intro t
    rfl
  | cons k rest ih =>
    intro t
    have h : containsPath (insertPath t (k :: rest)) (k :: rest) =
        containsPath (insertPath ((lookupChild k t.children).getD (TreeNode.mk [])) rest)
          rest := by
      simp [insertPath, containsPath, TreeNode.children, lookup_updateChild_self]
    rw [h]
    exact ih _

lemma insert_of_lookup_fix {k : String} {f : TreeNode → TreeNode} :
    ∀ (cs : List (String × TreeNode)) (c : TreeNode),
      lookupChild k cs = some c → f c = c → updateChild k f cs = cs := by
  intro cs
  induction cs with
  | nil =>
    intro c hc _
    simp [lookupChild] at hc
  | cons hd tail ih =>
    obtain ⟨q, t⟩ := hd
    intro c hc hfc
    by_cases hlt : strLt k q = true
    · simp [lookupChild, hlt] at hc
    · by_cases heq : k = q
      · subst heq
        simp [lookupChild, strLt_irrefl] at hc
        rw [updateChild_self k f t tail, hc, hfc]
      · simp [lookupChild, hlt, heq] at hc
        rw [updateChild_gt f t tail hlt heq, ih c hc hfc]

lemma insert_of_contains (p : List String) :
    ∀ t, containsPath t p = true → insertPath t p = t := by
  induction p with
  | nil =>
    intro t _
    rfl
  | cons k rest ih =>
    intro t h
    cases t with
    | mk cs =>
      cases hl : lookupChild k cs with
      | none => simp [containsPath, TreeNode.children, hl] at h
      | some c =>
        have hc : containsPath c rest = true := by
          simpa [containsPath, TreeNode.children, hl] using h
        show TreeNode.mk (updateChild k (fun x => insertPath x rest) cs) = TreeNode.mk cs
        rw [insert_of_lookup_fix cs c hl (ih c hc)]

lemma contains_insert_mono (p : List String) :
    ∀ t q, containsPath t p = true → containsPath (insertPath t q) p = true := by
  induction p with
  | nil =>
    intro t q _
    rfl
  | cons k rest ih =>
    intro t q h
    cases t with
    | mk cs =>
      cases hl : lookupChild k cs with
      | none => simp [containsPath, TreeNode.children, hl] at h
      | some c =>
        have hc : containsPath c rest = true := by
          simpa [containsPath, TreeNode.children, hl] using h
        cases q with
        | nil =>
          simpa [insertPath, containsPath, TreeNode.children, hl] using hc
        | cons k2 q2 =>
          by_cases hkk : k2 = k
          · subst hkk
            have hl2 := lookup_updateChild_self k2 (fun x => insertPath x q2) cs
            rw [hl] at hl2
            simp only [Option.getD_some] at hl2
            simp [insertPath, containsPath, TreeNode.children, hl2]
            exact ih c q2 hc
          · have hl2 := lookup_updateChild_other (fun he => hkk he.symm)
              (fun x => insertPath x q2) cs
            simp [insertPath, containsPath, TreeNode.children, hl2, hl]
            exact hc

lemma contains_foldl (l : List (List String)) :
    ∀ t p, containsPath t p = true → containsPath (l.foldl insertPath t) p = true := by
  induction l with
  | nil =>
    intro t p h
    exact h
  | cons q rest ih =>
    intro t p h
    exact ih _ p (contains_insert_mono p t q h)

lemma contains_of_mem_foldl (l : List (List String)) :
    ∀ t p, p ∈ l → containsPath (l.foldl insertPath t) p = true := by
  induction l with
  | nil =>
    intro t p h
    cases h
  | cons q rest ih =>
    intro t p h
    rcases List.mem_cons.mp h with rfl | h
    · exact contains_foldl rest _ p (contains_insert_self p t)
    · exact ih _ p h

lemma foldl_of_all_contained (l : List (List String)) :
    ∀ t, (∀ p ∈ l, containsPath t p = true) → l.foldl insertPath t = t := by
  induction l with
  | nil =>
    intro t _
    rfl
  | cons q rest ih =>
    intro t h
    have hq : insertPath t q = t := insert_of_contains q t (h q (List.mem_cons_self _ _))
    rw [List.foldl_cons, hq]
    exact ih t (fun p hp => h p (List.mem_cons_of_mem _ hp))

/-- C5: tree building is idempotent — inserting a path collection twice
produces the same tree as inserting it once, and re-inserting a single path
is a no-op. -/
theorem buildTree_idempotent (paths : List (List String)) (t : TreeNode)
    (p : List String) :
    buildTree (paths ++ paths) = buildTree paths ∧
    insertPath (insertPath t p) p = insertPath t p := by
  constructor
  · unfold buildTree
    rw [List.foldl_append]
    exact foldl_of_all_contained paths _ (fun q hq => contains_of_mem_foldl paths _ q hq)
  · exact insert_of_contains p _ (contains_insert_self p t)

/-- C6: each non-last sibling renders with connector `├── ` and continues its
descendants with prefix `│   `; the last sibling renders with `└── ` and
continues with four spaces, each appended to the accumulated prefix — and a
concrete three-sibling tree (with children under a non-last and a last
sibling) renders exactly as the spec says. -/
theorem render_connectors (pre name : String) (node : TreeNode)
    (tail : List (String × TreeNode)) :
    renderSiblings ((name, node) :: tail) pre =
      (pre ++ (if tail.isEmpty then "└── " else "├── ") ++ name) ::
        ((if node.children.isEmpty then []
          else print_tree_recursive node
            (pre ++ (if tail.isEmpty then "    " else "│   "))) ++
          renderSiblings tail pre) ∧
    tree_display [["a", "x"], ["b"], ["c", "y"]] =
      [".", "├── a", "│   └── x", "├── b", "└── c", "    └── y"] :=
  ⟨rfl, by decide⟩

/-- C7: on the empty path collection the renderer prints exactly the root
marker line `.` and nothing else. -/
theorem tree_display_empty : tree_display [] = ["."] := rfl

lemma insertPath_root_child (t : TreeNode) (rest : List String)
    (h : t.children = [] ∨ ∃ s, t.children = [("/", s)]) :
    ∃ s, (insertPath t ("/" :: rest)).children = [("/", s)] := by
  cases t with
  | mk cs =>
    rcases h with h | ⟨s, h⟩
    · have hcs : cs = [] := h
      subst hcs
      exact ⟨insertPath (TreeNode.mk []) rest, rfl⟩
    · have hcs : cs = [("/", s)] := h
      subst hcs
      refine ⟨insertPath s rest, ?_⟩
      show (TreeNode.mk (updateChild "/" (fun c => insertPath c rest) [("/", s)])).children =
        [("/", insertPath s rest)]
      rw [updateChild_self]
      rfl

lemma foldl_root_child (l : List (List String)) :
    ∀ t, (∀ p ∈ l, ∃ r, p = "/" :: r) → (∃ s, t.children = [("/", s)]) →
      ∃ s, (l.foldl insertPath t).children = [("/", s)] := by
  induction l with
  | nil =>
    intro t _ h
    exact h
  | cons q rest ih =>
    intro t hall h
    obtain ⟨r, hq⟩ := hall q (List.mem_cons_self _ _)
    subst hq
    exact ih _ (fun p hp => hall p (List.mem_cons_of_mem _ hp))
      (insertPath_root_child t r (Or.inr h))

/-- C10: for a non-empty collection of absolute paths (whose component lists
all start with the root component `/`, as `Path::components()` yields), the
built tree has `/` as its single top-level child, and the rendered output
places `└── /` directly under the root marker with everything else nested
beneath it. -/
theorem tree_root_slash (paths : List (List String)) (hne : paths ≠ [])
    (habs : ∀ p ∈ paths, ∃ r, p = "/" :: r) :
    ∃ sub, (buildTree paths).children = [("/", sub)] ∧
      tree_display paths = "." :: "└── /" ::
        (if sub.children.isEmpty then [] else print_tree_recursive sub "    ") := by
  obtain ⟨p₀, rest, rfl⟩ : ∃ p₀ rest, paths = p₀ :: rest := by
    cases paths with
    | nil => exact absurd rfl hne
    | cons a b => exact ⟨a, b, rfl⟩
  obtain ⟨r₀, hp₀⟩ := habs p₀ (List.mem_cons_self _ _)
  subst hp₀
  have h0 : ∃ s, (insertPath (TreeNode.mk []) ("/" :: r₀)).children = [("/", s)] :=
    insertPath_root_child _ r₀ (Or.inl rfl)
  obtain ⟨sub, hsub⟩ : ∃ s, (buildTree (("/" :: r₀) :: rest)).children = [("/", s)] := by
    unfold buildTree
    rw [List.foldl_cons]
    exact foldl_root_child rest _ (fun p hp => habs p (List.mem_cons_of_mem _ hp)) h0
  refine ⟨sub, hsub, ?_⟩
  have hbt : buildTree (("/" :: r₀) :: rest) = TreeNode.mk [("/", sub)] := by
    cases hb : buildTree (("/" :: r₀) :: rest) with
    | mk cs =>
      rw [hb] at hsub
      have : cs = [("/", sub)] := hsub
      rw [this]
  have hd : tree_display (("/" :: r₀) :: rest) =
      "." :: print_tree_recursive (buildTree (("/" :: r₀) :: rest)) "" := rfl
  rw [hd, hbt]
  have e1 : ("" : String) ++ "└── " ++ "/" = "└── /" := rfl
  have e2 : ("" : String) ++ "    " = "    " := rfl
  show "." :: renderSiblings [("/", sub)] "" = _
  rw [renderSiblings]
  simp [e1, e2]
  rfl

/-- Witness for `tree_root_slash` on the single absolute path `/usr`. -/
theorem tree_root_slash_witness :
    ∃ sub, (buildTree [["/", "usr"]]).children = [("/", sub)] ∧
      tree_display [["/", "usr"]] = "." :: "└── /" ::
        (if sub.children.isEmpty then [] else print_tree_recursive sub "    ") :=
  tree_root_slash [["/", "usr"]] (by simp) (by
    intro p hp
    rw [List.mem_singleton] at hp
    exact ⟨["usr"], hp⟩)

lemma append_cons_inj {α : Type} {c : α} :
    ∀ {xs₁ xs₂ ys₁ ys₂ : List α}, c ∉ xs₁ → c ∉ xs₂ →
      xs₁ ++ c :: ys₁ = xs₂ ++ c :: ys₂ → xs₁ = xs₂ ∧ ys₁ = ys₂ := by
  intro xs₁
  induction xs₁ with
  | nil =>
    intro xs₂ ys₁ ys₂ _ h₂ h
    cases xs₂ with
    | nil => simpa using h
    | cons x t =>
      rw [List.nil_append, List.cons_append] at h
      injection h with h1 _
      subst h1
      exact absurd (List.mem_cons_self _ _) h₂
  | cons x t ih =>
    intro xs₂ ys₁ ys₂ h₁ h₂ h
    cases xs₂ with
    | nil =>
      rw [List.nil_append, List.cons_append] at h
      injection h with h1 _
      subst h1
      exact absurd (List.mem_cons_self _ _) h₁
    | cons y u =>
      rw [List.cons_append, List.cons_append] at h
      injection h with h1 h2
      subst h1
      obtain ⟨hu, hy⟩ := ih (fun hm => h₁ (List.mem_cons_of_mem _ hm))
        (fun hm => h₂ (List.mem_cons_of_mem _ hm)) h2
      exact ⟨by rw [hu], hy⟩

/-- C8 counterexample: two identities that differ in the release and arch
fields format to the same NEVRA label, because the separator `.` also occurs
inside a field — the formatter is not injective on arbitrary field tuples. -/
theorem nevra_collision_counterexample :
    (PackageIdentity.mk "a" "0" "b" "c.d" "e") ≠
      (PackageIdentity.mk "a" "0" "b" "c" "d.e") ∧
    nevraString (PackageIdentity.mk "a" "0" "b" "c.d" "e") =
      nevraString (PackageIdentity.mk "a" "0" "b" "c" "d.e") := by
  refine ⟨by decide, by decide⟩

/-- C8 (amended): the formatter is a pure function (identical identities give
identical labels), and it is injective on identities whose fields avoid the
separator characters: name and version free of `-`, epoch free of `:`, and
release free of `.`.  (In general, fields containing the separators can make
distinct tuples collide.) -/
theorem nevra_injective (i₁ i₂ : PackageIdentity)
    (hn₁ : ('-' : Char) ∉ i₁.name.data) (hn₂ : ('-' : Char) ∉ i₂.name.data)
    (he₁ : (':' : Char) ∉ i₁.epoch.data) (he₂ : (':' : Char) ∉ i₂.epoch.data)
    (hv₁ : ('-' : Char) ∉ i₁.version.data) (hv₂ : ('-' : Char) ∉ i₂.version.data)
    (hr₁ : ('.' : Char) ∉ i₁.release.data) (hr₂ : ('.' : Char) ∉ i₂.release.data)
    (h : nevraString i₁ = nevraString i₂) : i₁ = i₂ := by
  obtain ⟨n₁, e₁, v₁, r₁, a₁⟩ := i₁
  obtain ⟨n₂, e₂, v₂, r₂, a₂⟩ := i₂
  have hd : (nevraString ⟨n₁, e₁, v₁, r₁, a₁⟩).data =
      (nevraString ⟨n₂, e₂, v₂, r₂, a₂⟩).data := congrArg String.data h
  have hdash : ("-" : String).data = ['-'] := rfl
  have hcolon : (":" : String).data = [':'] := rfl
  have hdot : ("." : String).data = ['.'] := rfl
  simp only [nevraString, String.data_append, hdash, hcolon, hdot,
    List.append_assoc, List.singleton_append] at hd
  obtain ⟨hn, hd⟩ := append_cons_inj hn₁ hn₂ hd
  obtain ⟨he, hd⟩ := append_cons_inj he₁ he₂ hd
  obtain ⟨hv, hd⟩ := append_cons_inj hv₁ hv₂ hd
  obtain ⟨hr, ha⟩ := append_cons_inj hr₁ hr₂ hd
  have hn' : n₁ = n₂ := strEq_of_data hn
  have he' : e₁ = e₂ := strEq_of_data he
  have hv' : v₁ = v₂ := strEq_of_data hv
  have hr' : r₁ = r₂ := strEq_of_data hr
  have ha' : a₁ = a₂ := strEq_of_data ha
  rw [hn', he', hv', hr', ha']

/-- Witness for `nevra_injective` on a concrete separator-free identity. -/
theorem nevra_injective_witness :
    (('-' : Char) ∉ ("n" : String).data) ∧
    (PackageIdentity.mk "n" "0" "1" "2" "x") = (PackageIdentity.mk "n" "0" "1" "2" "x") :=
  ⟨by decide, nevra_injective (PackageIdentity.mk "n" "0" "1" "2" "x")
    (PackageIdentity.mk "n" "0" "1" "2" "x") (by decide) (by decide) (by decide)
    (by decide) (by decide) (by decide) (by decide) (by decide) rfl⟩
